import Mathlib

/-!
Verification development for the pyfuncbuffer scheduling engine.

The engine (key resolution, schedule store, delay policy, buffer
orchestration) is specified in spec.md; its Python module is not part of
the sources available here, so every definition below is modelled from
the specification text, faithful to its words.
-/

namespace PyFuncBuffer

/-- An instant or a duration, modelled as a rational number of seconds. -/
abbrev Instant := ℚ

/-- Modelled from the spec: `BufferConfig` (§3) — per wrapped callable,
immutable after wrapping: `base_delay`, optional `random_range` as a
(min, max) pair, `always_buffer`, `key_on_arguments`, `shared`. -/
structure BufferConfig where
  base_delay : ℚ
  random_range : Option (ℚ × ℚ)
  always_buffer : Bool
  key_on_arguments : Bool
  shared : Bool
deriving DecidableEq

/-- Modelled from the spec: `ScheduleState` (§3) — per key, the
`anchor_instant` from which the next delay is measured, initially absent. -/
structure ScheduleState where
  anchor_instant : Option ℚ
deriving DecidableEq

/-- Modelled from the spec: step 1 of `DelayPolicy.decide` (§4.3) — the
effective delay `d` for this call: if `random_range` is configured, a value
drawn uniformly from `[min, max]` (the draw is passed in as `sample`);
otherwise `d = base_delay`. -/
def effectiveDelay (cfg : BufferConfig) (sample : ℚ) : ℚ :=
  match cfg.random_range with
  | some _ => sample
  | none => cfg.base_delay

/-- A draw lies in an optional range; when no range is configured the draw
is ignored. -/
def sampleInRange : Option (ℚ × ℚ) → ℚ → Prop
  | some (lo, hi), sample => lo ≤ sample ∧ sample ≤ hi
  | none, _ => True

instance : ∀ (r : Option (ℚ × ℚ)) (s : ℚ), Decidable (sampleInRange r s)
  | some (_, _), _ => inferInstanceAs (Decidable (_ ∧ _))
  | none, _ => inferInstanceAs (Decidable True)

/-- A draw is valid when it lies in the configured `random_range`. -/
def sampleValid (cfg : BufferConfig) (sample : ℚ) : Prop :=
  sampleInRange cfg.random_range sample

instance (cfg : BufferConfig) (s : ℚ) : Decidable (sampleValid cfg s) :=
  inferInstanceAs (Decidable (sampleInRange cfg.random_range s))

/-- Modelled from the spec: steps 2–3 of `DelayPolicy.decide` (§4.3),
after the effective delay `d` has been sampled.  Returns
`(wait_duration, new_anchor)`:
* anchor absent, `always_buffer` false: `(0, now)`;
* anchor absent, `always_buffer` true: `(d, now + d)`;
* anchor present, `always_buffer` false: with `elapsed = now - anchor`,
  `(0, now)` when `elapsed ≥ d`, else `(d - elapsed, anchor + d)`;
* anchor present, `always_buffer` true: with
  `target = max now anchor + d`, `(target - now, target)`. -/
def DelayPolicy.decide (anchor : Option ℚ) (alwaysBuffer : Bool)
    (d now : ℚ) : ℚ × ℚ :=
  match anchor with
  | none => if alwaysBuffer then (d, now + d) else (0, now)
  | some a =>
    if alwaysBuffer then
      let target := max now a + d
      (target - now, target)
    else
      let elapsed := now - a
      if elapsed ≥ d then (0, now) else (d - elapsed, a + d)

/-- The full policy: sample the effective delay from the configuration,
then decide from the stored state. -/
def DelayPolicy.decideFull (cfg : BufferConfig) (sample : ℚ)
    (st : ScheduleState) (now : ℚ) : ℚ × ℚ :=
  DelayPolicy.decide st.anchor_instant cfg.always_buffer
    (effectiveDelay cfg sample) now

/-- The reference behaviour claimed for `always_buffer = false`, written
directly from the specification sentences of §4.3 ("if `always_buffer` is
false: ..."). -/
def specNoAlwaysRef (anchor : Option ℚ) (d now : ℚ) : ℚ × ℚ :=
  match anchor with
  | none => (0, now)
  | some anchorInstant =>
    let elapsed := now - anchorInstant
    if elapsed ≥ d then (0, now)
    else (d - elapsed, anchorInstant + d)

/-- The reference behaviour claimed for `always_buffer = true`, written
directly from the specification sentences of §4.3 ("if `always_buffer` is
true: ..."). -/
def specAlwaysRef (anchor : Option ℚ) (d now : ℚ) : ℚ × ℚ :=
  match anchor with
  | none => (d, now + d)
  | some anchorInstant =>
    let target := max now anchorInstant + d
    (target - now, target)

/-- An optional range is well-formed: `min ≤ max` and, delays being
durations, `0 ≤ min` (§7: `min > max` and negative delays are
configuration errors). -/
def rangeValid : Option (ℚ × ℚ) → Prop
  | some (lo, hi) => lo ≤ hi ∧ 0 ≤ lo
  | none => True

instance : ∀ r : Option (ℚ × ℚ), Decidable (rangeValid r)
  | some (_, _) => inferInstanceAs (Decidable (_ ∧ _))
  | none => inferInstanceAs (Decidable True)

/-- Modelled from the spec: a valid configuration (§7) — a negative
`base_delay` and a `random_range` with negative or inverted endpoints are
configuration errors. -/
def validConfig (cfg : BufferConfig) : Prop :=
  0 ≤ cfg.base_delay ∧ rangeValid cfg.random_range

instance (cfg : BufferConfig) : Decidable (validConfig cfg) :=
  inferInstanceAs (Decidable (_ ∧ _))

/-- The effective delay of a valid draw under a valid configuration is
nonnegative. -/
theorem effectiveDelay_nonneg (cfg : BufferConfig) (s : ℚ)
    (hv : validConfig cfg) (hs : sampleValid cfg s) :
    0 ≤ effectiveDelay cfg s := by
  have hr := hv.2
  unfold sampleValid at hs
  unfold effectiveDelay
  split
  · next p heq =>
      obtain ⟨lo, hi⟩ := p
      rw [heq] at hr hs
      have hr' : lo ≤ hi ∧ 0 ≤ lo := hr
      have hs' : lo ≤ s ∧ s ≤ hi := hs
      exact le_trans hr'.2 hs'.1
  · exact hv.1

/-- The anchors successively committed for one key by a sequence of calls,
each call given as an (effective delay, request instant) pair; the policy
under the lock writes each `new_anchor` back before the next call reads
it (§4.3 step 4). -/
def committedAnchors (ab : Bool) (anchor : Option ℚ) :
    List (ℚ × ℚ) → List ℚ
  | [] => []
  | (d, now) :: rest =>
    let a := (DelayPolicy.decide anchor ab d now).2
    a :: committedAnchors ab (some a) rest

/-- One committed anchor never moves backwards when the effective delay is
nonnegative. -/
theorem decide_anchor_step_mono (a : ℚ) (ab : Bool) (d now : ℚ)
    (hd : 0 ≤ d) : a ≤ (DelayPolicy.decide (some a) ab d now).2 := by
  unfold DelayPolicy.decide
  cases ab with
  | true =>
    simp only [if_pos]
    have : a ≤ max now a := le_max_right now a
    linarith
  | false =>
    simp only [Bool.false_eq_true, if_false]
    by_cases h : now - a ≥ d
    · simp only [h, if_pos]
      linarith
    · simp only [h, if_neg, not_false_iff]
      linarith

/-- Evaluation of the policy at an absent anchor with `always_buffer`. -/
theorem decide_true_none (d now : ℚ) :
    DelayPolicy.decide none true d now = (d, now + d) := rfl

/-- Evaluation of the policy at a present anchor with `always_buffer`. -/
theorem decide_true_some (a d now : ℚ) :
    DelayPolicy.decide (some a) true d now =
      (max now a + d - now, max now a + d) := by
  unfold DelayPolicy.decide
  simp

/-- Evaluation of the policy at an absent anchor without `always_buffer`. -/
theorem decide_false_none (d now : ℚ) :
    DelayPolicy.decide none false d now = (0, now) := rfl

/-- Evaluation of the policy at a present anchor without `always_buffer`,
once the elapsed time has reached the delay. -/
theorem decide_false_some_ge (a d now : ℚ) (h : d ≤ now - a) :
    DelayPolicy.decide (some a) false d now = (0, now) := by
  simp [DelayPolicy.decide, ge_iff_le, h]

/-- Evaluation of the policy at a present anchor without `always_buffer`,
while the elapsed time is still short of the delay. -/
theorem decide_false_some_lt (a d now : ℚ) (h : now - a < d) :
    DelayPolicy.decide (some a) false d now = (d - (now - a), a + d) := by
  simp [DelayPolicy.decide, ge_iff_le, not_le.mpr h]

/-- A call with `always_buffer` issued exactly at the committed anchor is
pushed out exactly `d` further. -/
theorem decide_true_at_anchor (d a : ℚ) :
    DelayPolicy.decide (some a) true d a = (d, a + d) := by
  rw [decide_true_some, max_self]
  rw [Prod.mk.injEq]
  constructor
  · ring
  · rfl

/-- Keyword-argument name order: compare pairs by their name. -/
def kwLE {α : Type} (p q : String × α) : Prop := p.1 ≤ q.1

instance {α : Type} : DecidableRel (@kwLE α) :=
  fun p q => inferInstanceAs (Decidable (p.1 ≤ q.1))

instance {α : Type} : IsTotal (String × α) kwLE :=
  ⟨fun p q => le_total p.1 q.1⟩

instance {α : Type} : IsTrans (String × α) kwLE :=
  ⟨fun _ _ _ h1 h2 => le_trans h1 h2⟩

/-- Strict keyword name order, antisymmetric since it is asymmetric. -/
def kwLT {α : Type} (p q : String × α) : Prop := p.1 < q.1

instance {α : Type} : IsAntisymm (String × α) kwLT :=
  ⟨fun _ _ h1 h2 => absurd h2 (lt_asymm h1)⟩

/-- Keyword arguments in canonical order: (name, value) pairs sorted by
name. -/
def sortKwargs {α : Type} (kwargs : List (String × α)) :
    List (String × α) :=
  List.insertionSort kwLE kwargs

/-- Modelled from the spec: `normalize` (§3, §4.1) — the positional
argument tuple together with the keyword arguments in a canonical,
order-independent representation (sorted (name, value) pairs). -/
def normalize {α : Type} (args : List α) (kwargs : List (String × α)) :
    List α × List (String × α) :=
  (args, sortKwargs kwargs)

/-- Modelled from the spec: `BufferKey` (§3) — the identity of the
undecorated callable object (modelled as a number stable for the process
lifetime), plus the optional argument-signature component. -/
structure BufferKey (α : Type) where
  ident : Nat
  argsig : Option (List α × List (String × α))
deriving DecidableEq

/-- Modelled from the spec: `KeyResolver.resolve` (§4.1) — the callable
identity alone when `key_on_arguments` is false, otherwise paired with
the normalized argument signature. -/
def KeyResolver.resolve {α : Type} (ident : Nat) (args : List α)
    (kwargs : List (String × α)) (keyOnArguments : Bool) : BufferKey α :=
  if keyOnArguments then ⟨ident, some (normalize args kwargs)⟩
  else ⟨ident, none⟩

/-- Modelled from the spec: the `ScheduleStore` mapping (§3) from
`BufferKey` to the stored anchor, absent until first written. -/
def KeyStore (α : Type) := BufferKey α → Option ℚ

/-- Writing one key's anchor into the store. -/
def storeWrite {α : Type} [DecidableEq α] (s : KeyStore α)
    (k : BufferKey α) (v : Option ℚ) : KeyStore α :=
  fun k' => if k' = k then v else s k'

/-- Sorting keyword arguments permutes them. -/
theorem sortKwargs_perm {α : Type} (kwargs : List (String × α)) :
    (sortKwargs kwargs).Perm kwargs :=
  List.perm_insertionSort kwLE kwargs

/-- Sorted keyword arguments are ordered by name. -/
theorem sortKwargs_sorted {α : Type} (kwargs : List (String × α)) :
    List.Sorted kwLE (sortKwargs kwargs) :=
  List.sorted_insertionSort kwLE kwargs

/-- Two keyword lists that are permutations of one another with pairwise
distinct names sort identically. -/
theorem sortKwargs_perm_eq {α : Type} (kw1 kw2 : List (String × α))
    (hp : kw1.Perm kw2)
    (hnd : kw1.Pairwise fun p q => p.1 ≠ q.1) :
    sortKwargs kw1 = sortKwargs kw2 := by
  have hperm : (sortKwargs kw1).Perm (sortKwargs kw2) :=
    (sortKwargs_perm kw1).trans (hp.trans (sortKwargs_perm kw2).symm)
  have hnd1 : (sortKwargs kw1).Pairwise fun p q => p.1 ≠ q.1 :=
    ((sortKwargs_perm kw1).pairwise_iff fun h => Ne.symm h).mpr hnd
  have hnd2 : (sortKwargs kw2).Pairwise fun p q => p.1 ≠ q.1 :=
    (hperm.pairwise_iff fun h => Ne.symm h).mp hnd1
  have hs1 : List.Sorted kwLT (sortKwargs kw1) :=
    ((sortKwargs_sorted kw1).and hnd1).imp fun h =>
      lt_of_le_of_ne h.1 h.2
  have hs2 : List.Sorted kwLT (sortKwargs kw2) :=
    ((sortKwargs_sorted kw2).and hnd2).imp fun h =>
      lt_of_le_of_ne h.1 h.2
  exact List.eq_of_perm_of_sorted hperm hs1 hs2

/-- The outcome of one orchestrated call: the wait imposed on the caller,
the store after committing the new anchor, and the wrapped callable's own
outcome. -/
structure CallOutcome (α ε β : Type) where
  wait : ℚ
  store : KeyStore α
  result : Except ε β

/-- Modelled from the spec: `BufferEngine.call` (§4.4) — resolve the key,
run the policy under the key's critical section and commit the new anchor,
suspend for the computed wait, then invoke `wrapped(*args, **kwargs)` and
return its result or propagate its failure unchanged (failure is modelled
with `Except`). -/
def BufferEngine.call {α ε β : Type} [DecidableEq α] (cfg : BufferConfig)
    (store : KeyStore α) (sample now : ℚ) (ident : Nat)
    (wrapped : List α → List (String × α) → Except ε β)
    (args : List α) (kwargs : List (String × α)) : CallOutcome α ε β :=
  let key := KeyResolver.resolve ident args kwargs cfg.key_on_arguments
  let r := DelayPolicy.decideFull cfg sample ⟨store key⟩ now
  ⟨r.1, storeWrite store key (some r.2), wrapped args kwargs⟩

/-- Modelled from the spec: the local backend under two processes (§4.2) —
each process owns its own copy of the store; forking hands the child a
copy of the entries frozen at fork time, not a live view. -/
structure TwoProcessLocal (α : Type) where
  store1 : KeyStore α
  store2 : KeyStore α

/-- Forking duplicates the parent's store into both processes. -/
def forkLocal {α : Type} (s : KeyStore α) : TwoProcessLocal α := ⟨s, s⟩

/-- A call under the local backend touches only the calling process's
copy of the store. -/
def localCall {α : Type} [DecidableEq α] (w : TwoProcessLocal α)
    (inFirst : Bool) (cfg : BufferConfig) (sample now : ℚ)
    (key : BufferKey α) : ℚ × TwoProcessLocal α :=
  if inFirst then
    let r := DelayPolicy.decideFull cfg sample ⟨w.store1 key⟩ now
    (r.1, ⟨storeWrite w.store1 key (some r.2), w.store2⟩)
  else
    let r := DelayPolicy.decideFull cfg sample ⟨w.store2 key⟩ now
    (r.1, ⟨w.store1, storeWrite w.store2 key (some r.2)⟩)

/-- Modelled from the spec: the shared backend (§4.2) — one store visible
to all cooperating processes; every call reads and commits in it. -/
def sharedCall {α : Type} [DecidableEq α] (s : KeyStore α)
    (cfg : BufferConfig) (sample now : ℚ) (key : BufferKey α) :
    ℚ × KeyStore α :=
  let r := DelayPolicy.decideFull cfg sample ⟨s key⟩ now
  (r.1, storeWrite s key (some r.2))

end PyFuncBuffer

namespace PyFuncBuffer

/-- C1: with `always_buffer` false the delay policy matches the reference
definition: absent anchor gives wait 0 and new anchor `now`; present anchor
gives wait 0 / new anchor `now` once `elapsed ≥ d`, and otherwise wait
`d - elapsed` with new anchor `anchor + d`. -/
theorem decide_noAlways_matches_spec (anchor : Option ℚ) (d now : ℚ) :
    DelayPolicy.decide anchor false d now = specNoAlwaysRef anchor d now := by
  cases anchor <;> rfl

/-- C2: with `always_buffer` true the delay policy matches the reference
definition: absent anchor gives wait `d` and new anchor `now + d`; present
anchor gives `target = max now anchor + d`, wait `target - now`, new anchor
`target`. -/
theorem decide_always_matches_spec (anchor : Option ℚ) (d now : ℚ) :
    DelayPolicy.decide anchor true d now = specAlwaysRef anchor d now := by
  cases anchor <;> rfl

/-- C3: with `always_buffer` every call — the first-ever one included —
waits at least `d`, and when the second request is issued the moment the
first call's wait elapses (immediate succession; the real elapsed time
`w1` between the requests can exceed `d`), the second committed anchor is
the first committed anchor plus `d`. -/
theorem alwaysBuffer_unconditional (anchor : Option ℚ) (d now1 w1 a1 : ℚ)
    (h1 : DelayPolicy.decide anchor true d now1 = (w1, a1)) :
    d ≤ w1 ∧ d ≤ (DelayPolicy.decide (some a1) true d (now1 + w1)).1 ∧
      (DelayPolicy.decide (some a1) true d (now1 + w1)).2 = a1 + d := by
  have key : now1 + w1 = a1 ∧ d ≤ w1 := by
    cases anchor with
    | none =>
      rw [decide_true_none] at h1
      injection h1 with hw ha
      constructor
      · rw [← hw, ← ha]
      · rw [← hw]
    | some a0 =>
      rw [decide_true_some] at h1
      injection h1 with hw ha
      have hle : now1 ≤ max now1 a0 := le_max_left now1 a0
      constructor
      · rw [← hw, ← ha]; ring
      · rw [← hw]; linarith
  refine ⟨key.2, ?_, ?_⟩
  · rw [key.1, decide_true_at_anchor]
  · rw [key.1, decide_true_at_anchor]

/-- Witness for C3 at `anchor = none`, `d = 1`, `now1 = 0`. -/
theorem alwaysBuffer_unconditional_witness :
    (1 : ℚ) ≤ 1 ∧
      (1 : ℚ) ≤ (DelayPolicy.decide (some 1) true 1 ((0 : ℚ) + 1)).1 ∧
      (DelayPolicy.decide (some 1) true 1 ((0 : ℚ) + 1)).2 = 1 + 1 :=
  alwaysBuffer_unconditional none 1 0 1 1 (by simp [decide_true_none])

/-- C5: for one key, the committed `anchor_instant` values are
monotonically non-decreasing: starting from any stored anchor, every call
(whatever its `always_buffer` branch) writes a value at least the
previously committed one, provided each call's effective delay is
nonnegative. -/
theorem committedAnchors_monotone (ab : Bool) (anchor : Option ℚ)
    (calls : List (ℚ × ℚ)) (h : ∀ p ∈ calls, 0 ≤ p.1) :
    List.Chain' (· ≤ ·) (anchor.toList ++ committedAnchors ab anchor calls) := by
  induction calls generalizing anchor with
  | nil =>
    cases anchor <;> simp [committedAnchors]
  | cons c rest ih =>
    obtain ⟨d, now⟩ := c
    have hd : 0 ≤ d := h (d, now) (List.mem_cons_self _ _)
    have hrest : ∀ p ∈ rest, 0 ≤ p.1 := fun p hp => h p (List.mem_cons_of_mem _ hp)
    have tail := ih (some ((DelayPolicy.decide anchor ab d now).2)) hrest
    cases anchor with
    | none =>
      simpa [committedAnchors] using tail
    | some a0 =>
      have mono := decide_anchor_step_mono a0 ab d now hd
      simp only [committedAnchors, Option.toList_some, List.cons_append,
        List.nil_append] at tail ⊢
      exact List.chain'_cons.mpr ⟨mono, tail⟩

/-- Witness for C5: anchor 2, then calls at instants 5 and 11/2 with unit
delays. -/
theorem committedAnchors_monotone_witness :
    List.Chain' (· ≤ ·)
      ((some (2 : ℚ)).toList ++
        committedAnchors false (some 2) [(1, 5), (1, 11 / 2)]) :=
  committedAnchors_monotone false (some 2) [(1, 5), (1, 11 / 2)] (by simp)

/-- C4: two calls resolve to the same `BufferKey` exactly when they target
the same underlying callable and, with key-on-arguments enabled, have
equal normalized argument signatures; and a write to one key never touches
the stored anchor of a distinct key. -/
theorem bufferKey_eq_iff {α : Type} [DecidableEq α] (i1 i2 : Nat)
    (a1 a2 : List α) (k1 k2 : List (String × α)) (kb : Bool) :
    (KeyResolver.resolve i1 a1 k1 kb = KeyResolver.resolve i2 a2 k2 kb ↔
      i1 = i2 ∧ (kb = true → normalize a1 k1 = normalize a2 k2)) ∧
    (∀ (s : KeyStore α) (v : Option ℚ),
      KeyResolver.resolve i1 a1 k1 kb ≠ KeyResolver.resolve i2 a2 k2 kb →
      storeWrite s (KeyResolver.resolve i1 a1 k1 kb) v
          (KeyResolver.resolve i2 a2 k2 kb)
        = s (KeyResolver.resolve i2 a2 k2 kb)) := by
  constructor
  · cases kb <;> simp [KeyResolver.resolve]
  · intro s v hne
    unfold storeWrite
    rw [if_neg (Ne.symm hne)]

/-- Witness for C4: distinct callables get distinct keys and one's write
leaves the other's anchor untouched. -/
theorem bufferKey_eq_iff_witness :
    storeWrite (fun _ => none)
        (KeyResolver.resolve 0 ([] : List String) [] false) (some 1)
        (KeyResolver.resolve 1 ([] : List String) [] false)
      = (fun _ => (none : Option ℚ))
        (KeyResolver.resolve 1 ([] : List String) [] false) :=
  (bufferKey_eq_iff 0 1 [] [] [] [] false).2 (fun _ => none) (some 1)
    (by decide)

/-- C6: normalization distinguishes keyword argument values —
`("foo",)` with `arg2 = "bar"` differs from `("foo",)` with
`arg2 = "baz"` — and is independent of keyword insertion order for any
keyword mapping (pairwise distinct names). -/
theorem normalize_kwargs_canonical :
    normalize ["foo"] [("arg2", "bar")] ≠ normalize ["foo"] [("arg2", "baz")] ∧
    ∀ (α : Type) (args : List α) (kw1 kw2 : List (String × α)),
      kw1.Perm kw2 → (kw1.Pairwise fun p q => p.1 ≠ q.1) →
      normalize args kw1 = normalize args kw2 := by
  constructor
  · decide
  · intro α args kw1 kw2 hp hnd
    unfold normalize
    rw [sortKwargs_perm_eq kw1 kw2 hp hnd]

/-- Witness for C6: the two insertion orders of `a = "x", b = "y"`
normalize identically. -/
theorem normalize_kwargs_canonical_witness :
    normalize ["p"] [("a", "x"), ("b", "y")]
      = normalize ["p"] [("b", "y"), ("a", "x")] :=
  normalize_kwargs_canonical.2 String ["p"]
    [("a", "x"), ("b", "y")] [("b", "y"), ("a", "x")]
    (List.Perm.swap ("b", "y") ("a", "x") []) (by decide)

/-- C10: under a valid configuration and a valid draw, and a `now` not
earlier than the stored anchor, the computed wait is nonnegative; in
particular once the elapsed time since the anchor reaches the effective
delay (with `always_buffer` false), the wait is exactly 0, never
`d - elapsed < 0`. -/
theorem wait_nonneg (cfg : BufferConfig) (s : ℚ) (st : ScheduleState)
    (now : ℚ) (hv : validConfig cfg) (hs : sampleValid cfg s)
    (hanchor : ∀ a, st.anchor_instant = some a → a ≤ now) :
    0 ≤ (DelayPolicy.decideFull cfg s st now).1 ∧
      (∀ a, st.anchor_instant = some a → cfg.always_buffer = false →
        effectiveDelay cfg s ≤ now - a →
        (DelayPolicy.decideFull cfg s st now).1 = 0) := by
  have hd : 0 ≤ effectiveDelay cfg s := effectiveDelay_nonneg cfg s hv hs
  have hfull : DelayPolicy.decideFull cfg s st now =
      DelayPolicy.decide st.anchor_instant cfg.always_buffer
        (effectiveDelay cfg s) now := rfl
  rcases hsta : st.anchor_instant with _ | a
  · constructor
    · rw [hfull, hsta]
      cases cfg.always_buffer
      · rw [decide_false_none]
      · rw [decide_true_none]
        exact hd
    · intro a' ha' _ _
      exact Option.noConfusion ha'
  · have ha : a ≤ now := hanchor a hsta
    constructor
    · rw [hfull, hsta]
      cases cfg.always_buffer
      · by_cases hcase : effectiveDelay cfg s ≤ now - a
        · rw [decide_false_some_ge a _ now hcase]
        · push_neg at hcase
          rw [decide_false_some_lt a _ now hcase]
          show 0 ≤ effectiveDelay cfg s - (now - a)
          linarith
      · rw [decide_true_some]
        show 0 ≤ max now a + effectiveDelay cfg s - now
        have hm : now ≤ max now a := le_max_left now a
        linarith
    · intro a' ha' hab hel
      injection ha' with haa
      have hel' : effectiveDelay cfg s ≤ now - a := by rw [haa]; exact hel
      rw [hfull, hsta, hab, decide_false_some_ge a _ now hel']

/-- C7: a `random_range` of `(x, x)` behaves identically to a fixed delay
of `x` with no range: whatever the stored state, the other configuration
fields, the draws, and the instant, the policy returns the same
`(wait, new_anchor)` pair. -/
theorem random_range_degenerate (x b : ℚ) (ab kb sh : Bool) (s s' : ℚ)
    (st : ScheduleState) (now : ℚ)
    (hs : sampleValid ⟨b, some (x, x), ab, kb, sh⟩ s) :
    DelayPolicy.decideFull ⟨b, some (x, x), ab, kb, sh⟩ s st now
      = DelayPolicy.decideFull ⟨x, none, ab, kb, sh⟩ s' st now := by
  have hs' : x ≤ s ∧ s ≤ x := hs
  have hx : s = x := le_antisymm hs'.2 hs'.1
  have hL : DelayPolicy.decideFull ⟨b, some (x, x), ab, kb, sh⟩ s st now
      = DelayPolicy.decide st.anchor_instant ab s now := rfl
  have hR : DelayPolicy.decideFull ⟨x, none, ab, kb, sh⟩ s' st now
      = DelayPolicy.decide st.anchor_instant ab x now := rfl
  rw [hL, hR, hx]

/-- Witness for C7 at `x = 1`, empty state, `now = 5`. -/
theorem random_range_degenerate_witness :
    DelayPolicy.decideFull ⟨0, some (1, 1), false, false, false⟩ 1 ⟨none⟩ 5
      = DelayPolicy.decideFull ⟨1, none, false, false, false⟩ 0 ⟨none⟩ 5 :=
  random_range_degenerate 1 0 false false false 1 0 ⟨none⟩ 5
    ⟨le_refl 1, le_refl 1⟩

/-- C8: the engine invokes the wrapped callable with exactly the supplied
positional and keyword arguments and returns its outcome unchanged; in
particular a failure raised by the callable propagates unchanged, never
intercepted, transformed, or retried. -/
theorem engine_transparent {α ε β : Type} [DecidableEq α]
    (cfg : BufferConfig) (store : KeyStore α) (sample now : ℚ)
    (ident : Nat) (wrapped : List α → List (String × α) → Except ε β)
    (args : List α) (kwargs : List (String × α)) :
    (BufferEngine.call cfg store sample now ident wrapped args kwargs).result
      = wrapped args kwargs ∧
    ∀ e, wrapped args kwargs = Except.error e →
      (BufferEngine.call cfg store sample now ident wrapped
          args kwargs).result = Except.error e := by
  refine ⟨rfl, ?_⟩
  intro e he
  rw [show (BufferEngine.call cfg store sample now ident wrapped
      args kwargs).result = wrapped args kwargs from rfl, he]

/-- Witness for C8: a callable that fails with `"boom"` has its failure
returned untouched by the engine. -/
theorem engine_transparent_witness :
    (BufferEngine.call (α := String) (β := Unit)
        ⟨1, none, false, false, false⟩ (fun _ => none) 0 0 0
        (fun _ _ => Except.error "boom") [] []).result
      = Except.error "boom" :=
  (engine_transparent ⟨1, none, false, false, false⟩ (fun _ => none) 0 0 0
    (fun _ _ => Except.error "boom") [] []).2 "boom" rfl

/-- C9: under the local backend a call in one process leaves the other
process's fork-frozen copy untouched, so with a fresh key and the default
policy the other process's call is never buffered; under the shared
backend both processes see one store, the earlier call waits 0, and the
later call's invocation instant is exactly `d` past the earlier one's. -/
theorem process_visibility {α : Type} [DecidableEq α] (key : BufferKey α)
    (cfg : BufferConfig) (s0 : KeyStore α) (sA sB t1 t2 d : ℚ)
    (hab : cfg.always_buffer = false)
    (hdB : effectiveDelay cfg sB = d)
    (h1 : t1 ≤ t2) (h2 : t2 < t1 + d) :
    ((localCall (forkLocal s0) true cfg sA t1 key).2.store2 = s0 ∧
      (s0 key = none →
        (localCall ((localCall (forkLocal s0) true cfg sA t1 key).2) false
            cfg sB t2 key).1 = 0)) ∧
    ((sharedCall (fun _ => none) cfg sA t1 key).1 = 0 ∧
      t2 + (sharedCall (sharedCall (fun _ => none) cfg sA t1 key).2
          cfg sB t2 key).1
        = (t1 + (sharedCall (fun _ => none) cfg sA t1 key).1) + d) := by
  have hfull_none : ∀ sm nw : ℚ,
      DelayPolicy.decideFull cfg sm ⟨none⟩ nw = (0, nw) := by
    intro sm nw
    have h : DelayPolicy.decideFull cfg sm ⟨none⟩ nw
        = DelayPolicy.decide none cfg.always_buffer
            (effectiveDelay cfg sm) nw := rfl
    rw [h, hab, decide_false_none]
  refine ⟨⟨rfl, ?_⟩, ?_, ?_⟩
  · intro h0
    have h : (localCall ((localCall (forkLocal s0) true cfg sA t1 key).2)
        false cfg sB t2 key).1
        = (DelayPolicy.decideFull cfg sB ⟨s0 key⟩ t2).1 := rfl
    rw [h, h0, hfull_none]
  · have h : (sharedCall (fun _ => none) cfg sA t1 key).1
        = (DelayPolicy.decideFull cfg sA ⟨none⟩ t1).1 := rfl
    rw [h, hfull_none]
  · have hstore : (sharedCall (fun _ => none) cfg sA t1 key).2 key
        = some ((DelayPolicy.decideFull cfg sA ⟨none⟩ t1).2) := by
      have h : (sharedCall (fun _ => none) cfg sA t1 key).2 key
          = storeWrite (fun _ => none) key
              (some ((DelayPolicy.decideFull cfg sA ⟨none⟩ t1).2)) key := rfl
      rw [h]
      unfold storeWrite
      rw [if_pos rfl]
    have hanchor : (DelayPolicy.decideFull cfg sA ⟨none⟩ t1).2 = t1 := by
      rw [hfull_none]
    have hw1 : (sharedCall (fun _ => none) cfg sA t1 key).1 = 0 := by
      have h : (sharedCall (fun _ => none) cfg sA t1 key).1
          = (DelayPolicy.decideFull cfg sA ⟨none⟩ t1).1 := rfl
      rw [h, hfull_none]
    have hsnd : (sharedCall (sharedCall (fun _ => none) cfg sA t1 key).2
        cfg sB t2 key).1
        = (DelayPolicy.decideFull cfg sB
            ⟨(sharedCall (fun _ => none) cfg sA t1 key).2 key⟩ t2).1 := rfl
    have hdec : DelayPolicy.decideFull cfg sB ⟨some t1⟩ t2
        = DelayPolicy.decide (some t1) cfg.always_buffer
            (effectiveDelay cfg sB) t2 := rfl
    rw [hsnd, hstore, hanchor, hdec, hab, hdB,
      decide_false_some_lt t1 d t2 (by linarith), hw1]
    show t2 + (d - (t2 - t1)) = t1 + 0 + d
    ring

/-- Witness for C9: delay 1, first call at instant 0, second at 1/2. -/
theorem process_visibility_witness :
    (((localCall (forkLocal (fun _ => none))
          true ⟨1, none, false, false, false⟩ 0 0
          (⟨0, none⟩ : BufferKey String)).2.store2 = fun _ => none) ∧
      ((fun _ => (none : Option ℚ)) (⟨0, none⟩ : BufferKey String) = none →
        (localCall ((localCall (forkLocal (fun _ => none)) true
            ⟨1, none, false, false, false⟩ 0 0
            (⟨0, none⟩ : BufferKey String)).2) false
            ⟨1, none, false, false, false⟩ 0 (1 / 2)
            (⟨0, none⟩ : BufferKey String)).1 = 0)) ∧
    ((sharedCall (fun _ => none) ⟨1, none, false, false, false⟩ 0 0
        (⟨0, none⟩ : BufferKey String)).1 = 0 ∧
      1 / 2 + (sharedCall (sharedCall (fun _ => none)
          ⟨1, none, false, false, false⟩ 0 0
          (⟨0, none⟩ : BufferKey String)).2
          ⟨1, none, false, false, false⟩ 0 (1 / 2)
          (⟨0, none⟩ : BufferKey String)).1
        = (0 + (sharedCall (fun _ => none) ⟨1, none, false, false, false⟩
            0 0 (⟨0, none⟩ : BufferKey String)).1) + 1) :=
  process_visibility (⟨0, none⟩ : BufferKey String)
    ⟨1, none, false, false, false⟩ (fun _ => none) 0 0 0 (1 / 2) 1
    rfl rfl (by norm_num) (by norm_num)

/-- Witness for C10: fixed delay 1, anchor 0, now 2 — the wait is 0. -/
theorem wait_nonneg_witness :
    0 ≤ (DelayPolicy.decideFull ⟨1, none, false, false, false⟩ 0 ⟨some 0⟩ 2).1 ∧
      (DelayPolicy.decideFull ⟨1, none, false, false, false⟩ 0 ⟨some 0⟩ 2).1 = 0 :=
  have h := wait_nonneg ⟨1, none, false, false, false⟩ 0 ⟨some 0⟩ 2
    ⟨by norm_num, trivial⟩ trivial
    (by intro a ha; injection ha with h0; rw [← h0]; norm_num)
  ⟨h.1, h.2 0 rfl rfl (by norm_num [effectiveDelay])⟩

end PyFuncBuffer
